import Mathlib

/-
Shallow embedding of src/graph_analysis.py (Social-and-Large-Scale-Networks).

The program analyzes a signed undirected graph loaded from GML:
  * sign derivation        (main, lines 104-107)
  * cycle-based balance    (is_graph_balanced, lines 54-62)
  * attribute balance      (is_graph_balanced_by_node_attributes, lines 65-78)
  * homophily proportion   (main, lines 124-144)
  * Girvan-Newman style partition loop (main, lines 146-154)

Graphs are finite: nodes are identifiers with a string-valued attribute map,
edges are endpoint pairs with an optional color and an optional integer sign
(an absent sign models an edge dict without the key, which the code reads
with data.get with default 1).  Library calls (networkx) are modelled by
their mathematical meaning on this representation, as noted at each def.
-/

namespace GraphAnalysis

/-- Node of the graph: identifier plus attribute mapping (GML node attributes). -/
structure Node where
  id : String
  attrs : List (String × String)
deriving DecidableEq

/-- Edge of the undirected graph: endpoints, optional color attribute, and the
derived sign attribute; an edge dict without the sign key is modelled by none. -/
structure Edge where
  u : String
  v : String
  color : Option String
  sign : Option Int
deriving DecidableEq

/-- The in-memory graph: node list and edge list (networkx Graph contents). -/
structure Graph where
  nodes : List Node
  edges : List Edge
deriving DecidableEq

/-- Identifiers of the nodes of the graph. -/
def nodeNames (g : Graph) : List String := g.nodes.map Node.id

/-- Number of nodes, len of the node list. -/
def numNodes (g : Graph) : Nat := (nodeNames g).length

/-- Sign of an edge as the code reads it: data.get with default 1. -/
def getSign (e : Edge) : Int := e.sign.getD 1

/-- Attribute lookup on a node of the graph, models graph.nodes with a key. -/
def nodeAttr (g : Graph) (u a : String) : Option String :=
  match g.nodes.find? (fun nd => nd.id == u) with
  | some nd => nd.attrs.lookup a
  | none => none

/-- Two named nodes are joined by some edge of the graph (either orientation). -/
def adjacent (g : Graph) (u v : String) : Bool :=
  g.edges.any (fun e => (e.u == u && e.v == v) || (e.u == v && e.v == u))

/-- The edge joining u and v, if any (either orientation); models the nested
dict access graph with keys u then v of networkx. -/
def findEdge (g : Graph) (u v : String) : Option Edge :=
  g.edges.find? (fun e => (e.u == u && e.v == v) || (e.u == v && e.v == u))

/-- Sign read along a cycle, models data.get of the sign key with default 1 on
the edge between u and v; on a cycle the edge lookup always succeeds. -/
def edgeSign (g : Graph) (u v : String) : Int :=
  match findEdge g u v with
  | some e => getSign e
  | none => 1

/-- Successive pairs along a cycle, including the wrap-around pair; models
zip of the cycle with its rotation by one used at line 58. -/
def cyclePairs (c : List String) : List (String × String) :=
  c.zip (c.drop 1 ++ c.take 1)

/-- Count of edges along the cycle whose sign is -1 (line 58-59). -/
def negEdgeCount (g : Graph) (c : List String) : Nat :=
  (cyclePairs c).countP (fun p => edgeSign g p.1 p.2 == -1)

/-- A list of nodes forms a simple cycle of the undirected graph: at least
three distinct nodes of the graph, consecutive ones (wrap-around included)
adjacent. -/
def isSimpleCycle (g : Graph) (c : List String) : Bool :=
  decide (3 ≤ c.length ∧ c.Nodup ∧ (∀ x ∈ c, x ∈ nodeNames g) ∧
    ∀ p ∈ cyclePairs c, adjacent g p.1 p.2 = true)

/-- All ways to insert an element into a list. -/
def insertsAll (x : String) : List String → List (List String)
  | [] => [[x]]
  | y :: ys => (x :: y :: ys) :: (insertsAll x ys).map (fun l => y :: l)

/-- All permutations of a list, by structural recursion. -/
def perms : List String → List (List String)
  | [] => [[]]
  | x :: xs => (perms xs).flatMap (insertsAll x)

/-- All simple cycles of the undirected graph, models nx.simple_cycles.  The
enumeration lists every simple cycle (possibly in several rotations and
orientations; the parity test applied to each is invariant under those). -/
def simpleCycles (g : Graph) : List (List String) :=
  ((nodeNames g).sublists.flatMap perms).filter (isSimpleCycle g)

/-- The for-loop of is_graph_balanced over the enumerated cycles, with the
early return False on an odd cycle with an odd count of negative edges. -/
def balancedGo (g : Graph) : List (List String) → Bool
  | [] => true
  | c :: rest =>
    if c.length % 2 = 1 then
      if negEdgeCount g c % 2 = 1 then false
      else balancedGo g rest
    else balancedGo g rest

/-- Model of is_graph_balanced (lines 54-62). -/
def is_graph_balanced (g : Graph) : Bool :=
  balancedGo g (simpleCycles g)

/-- The for-loop of is_graph_balanced_by_node_attributes over the edge list:
if both endpoints carry the attribute, equal values demand sign 1 and
different values demand sign -1; a missing attribute returns False at once. -/
def balancedByAttrGo (g : Graph) (a : String) : List Edge → Bool
  | [] => true
  | e :: rest =>
    match nodeAttr g e.u a, nodeAttr g e.v a with
    | some au, some av =>
      if au = av then
        if getSign e ≠ 1 then false else balancedByAttrGo g a rest
      else
        if getSign e ≠ -1 then false else balancedByAttrGo g a rest
    | _, _ => false

/-- Model of is_graph_balanced_by_node_attributes (lines 65-78). -/
def is_graph_balanced_by_node_attributes (g : Graph) (a : String) : Bool :=
  balancedByAttrGo g a g.edges

/-- Sign derivation on one edge (line 107): -1 when the color is the string r,
else 1. -/
def deriveSign (e : Edge) : Edge :=
  { e with sign := some (if e.color = some "r" then -1 else 1) }

/-- Sign derivation over the whole graph (lines 105-107). -/
def deriveSigns (g : Graph) : Graph :=
  { g with edges := g.edges.map deriveSign }

/-- A copy of the graph in which every edge carries the explicit sign 1. -/
def allPositive (g : Graph) : Graph :=
  { g with edges := g.edges.map (fun e => { e with sign := some 1 }) }

/-- Outcome of the homophily block of main (lines 124-144): the computed
proportion of same-color edges, the printed cannot-determine message when
there are no edges, or the KeyError when an endpoint is absent from the
color map read from homophily.gml. -/
inductive HomophilyOutcome where
  | proportion (q : ℚ)
  | cannotDetermine
  | missingNode
deriving DecidableEq

/-- The counting loop of lines 131-135: same-color and different-color edge
counts under the external color map; none models the KeyError on a node
absent from the map. -/
def countColors (cm : List (String × String)) : List Edge → Option (Nat × Nat)
  | [] => some (0, 0)
  | e :: rest =>
    match cm.lookup e.u, cm.lookup e.v with
    | some cu, some cv =>
      (countColors cm rest).map (fun p => if cu = cv then (p.1 + 1, p.2) else (p.1, p.2 + 1))
    | _, _ => none

/-- Model of the homophily verification block (lines 124-144): the proportion
same over total is formed only when the total edge count is positive. -/
def verify_homophily (g : Graph) (cm : List (String × String)) : HomophilyOutcome :=
  match countColors cm g.edges with
  | none => HomophilyOutcome.missingNode
  | some p =>
    if 0 < p.1 + p.2 then HomophilyOutcome.proportion ((p.1 : ℚ) / ((p.1 : ℚ) + (p.2 : ℚ)))
    else HomophilyOutcome.cannotDetermine

/-- One saturation step of reachability: add every node of the graph adjacent
to the current set. -/
def closeStep (g : Graph) (S : List String) : List String :=
  S ++ (nodeNames g).filter (fun v => !S.contains v && S.any (fun u => adjacent g u v))

/-- Iterated saturation. -/
def closureN (g : Graph) : Nat → List String → List String
  | 0, S => S
  | n + 1, S => closureN g n (closeStep g S)

/-- Reachability in the undirected graph: v lies in the saturation of the
singleton u; as many steps as there are nodes always reach the fixpoint. -/
def reachable (g : Graph) (u v : String) : Bool :=
  (closureN g (nodeNames g).length [u]).contains v

/-- Canonical representative of the connected component of u: the first node
of the node list reachable from u. -/
def repOf (g : Graph) (u : String) : String :=
  ((nodeNames g).find? (fun w => reachable g u w)).getD u

/-- Number of connected components, models len of list of
nx.connected_components: the number of distinct component representatives
over the nodes of the graph. -/
def numComponents (g : Graph) : Nat :=
  ((nodeNames g).map (repOf g)).toFinset.card

/-- Exact nonnegative fraction (numerator and denominator, not reduced) used
for edge betweenness scores; the code manipulates these values as floats,
modelled here by exact rational arithmetic. -/
structure Frac where
  num : Nat
  den : Nat
deriving DecidableEq

/-- Fraction addition. -/
def Frac.add (a b : Frac) : Frac := ⟨a.num * b.den + b.num * a.den, a.den * b.den⟩

/-- Fraction multiplication. -/
def Frac.mul (a b : Frac) : Frac := ⟨a.num * b.num, a.den * b.den⟩

/-- Strict comparison of fractions by cross multiplication. -/
def Frac.lt (a b : Frac) : Bool := decide (a.num * b.den < b.num * a.den)

/-- Sum of a list of fractions. -/
def Frac.total (l : List Frac) : Frac := l.foldl Frac.add ⟨0, 1⟩

/-- Neighbors of a named node along the edges of the graph. -/
def nbrs (g : Graph) (u : String) : List String :=
  g.edges.foldr
    (fun e acc => if e.u == u then e.v :: acc else if e.v == u then e.u :: acc else acc) []

/-- All simple paths from a to t avoiding the visited list, by fuel-bounded
search; with fuel the number of nodes the enumeration is complete, a simple
path visiting each node at most once. -/
def pathsAux (g : Graph) : Nat → String → String → List String → List (List String)
  | 0, a, t, _ => if a == t then [[a]] else []
  | n + 1, a, t, vis =>
    if a == t then [[a]]
    else
      ((nbrs g a).filter (fun w => !(a :: vis).contains w)).flatMap
        (fun w => (pathsAux g n w t (a :: vis)).map (fun p => a :: p))

/-- All simple paths between two named nodes. -/
def simplePathsBetween (g : Graph) (s t : String) : List (List String) :=
  pathsAux g (nodeNames g).length s t []

/-- The path traverses the given edge (in either direction). -/
def pathTraverses (e : Edge) (p : List String) : Bool :=
  (p.zip (p.drop 1)).any
    (fun q => (q.1 == e.u && q.2 == e.v) || (q.1 == e.v && q.2 == e.u))

/-- Contribution of one node pair to the betweenness of an edge: the fraction
of the shortest s-t paths that traverse the edge; zero for unconnected pairs. -/
def pairScore (g : Graph) (e : Edge) (s t : String) : Frac :=
  let ps := simplePathsBetween g s t
  match (ps.map List.length).min? with
  | none => ⟨0, 1⟩
  | some m =>
    let shortest := ps.filter (fun p => p.length == m)
    ⟨(shortest.filter (pathTraverses e)).length, shortest.length⟩

/-- All unordered pairs of elements of a list, each once. -/
def listPairs : List String → List (String × String)
  | [] => []
  | x :: xs => xs.map (fun y => (x, y)) ++ listPairs xs

/-- Edge betweenness centrality, models nx.edge_betweenness_centrality: sum
over unordered node pairs of the fraction of shortest paths through the edge,
scaled (as networkx does with its default normalization) by 2 over n(n-1)
when the graph has more than one node.  The scale, a positive constant shared
by all edges, never affects which edge attains the maximum. -/
def edge_betweenness_centrality (g : Graph) (e : Edge) : Frac :=
  let raw := Frac.total ((listPairs (nodeNames g)).map (fun p => pairScore g e p.1 p.2))
  let n := (nodeNames g).length
  if n ≤ 1 then raw else raw.mul ⟨2, n * (n - 1)⟩

/-- One step of the Python max over the betweenness dict: keep the current
best unless the candidate scores strictly higher (so ties keep the earlier
edge, as max does on equal keys). -/
def pickHigher (g : Graph) (best e2 : Edge) : Edge :=
  if Frac.lt (edge_betweenness_centrality g best) (edge_betweenness_centrality g e2) then e2
  else best

/-- The edge of maximal betweenness (line 149): max over the score mapping in
edge order, none when the graph has no edges (where Python max raises
ValueError on the empty dict). -/
def argmaxEdge (g : Graph) : Option Edge :=
  match g.edges with
  | [] => none
  | e :: es => some (es.foldl (pickHigher g) e)

/-- The two edges join the same endpoint pair. -/
def sameEnds (e2 e : Edge) : Bool :=
  (e2.u == e.u && e2.v == e.v) || (e2.u == e.v && e2.v == e.u)

/-- Removal of the edge between two endpoints (line 150, graph.remove_edge). -/
def removeEdge (g : Graph) (e : Edge) : Graph :=
  { g with edges := g.edges.filter (fun e2 => !sameEnds e2 e) }

/-- The while-True loop of lines 147-154, by fuel recursion: remove the
highest-betweenness edge, then stop as soon as the component count reaches
the target.  none models the ValueError Python max raises on the empty score
dict once no edges remain.  Each pass removes an edge, so fuel exceeding the
edge count makes the zero-fuel case unreachable. -/
def partitionGo (t : Nat) : Nat → Graph → Option Graph
  | 0, _ => none
  | fuel + 1, g =>
    match argmaxEdge g with
    | none => none
    | some e =>
      if t ≤ numComponents (removeEdge g e) then some (removeEdge g e)
      else partitionGo t fuel (removeEdge g e)

/-- The partition operation: the loop of lines 146-154 run on the graph. -/
def partitionLoop (g : Graph) (t : Nat) : Option Graph :=
  partitionGo t (g.edges.length + 1) g

/-- The successive graph states after each edge removal of the partition
loop, in order, ending with the state at which the loop stopped (or with the
last state before the failure on an edgeless graph). -/
def partitionStatesGo (t : Nat) : Nat → Graph → List Graph
  | 0, _ => []
  | fuel + 1, g =>
    match argmaxEdge g with
    | none => []
    | some e =>
      if t ≤ numComponents (removeEdge g e) then [removeEdge g e]
      else removeEdge g e :: partitionStatesGo t fuel (removeEdge g e)

/-- The post-removal states of the partition loop on the graph. -/
def partitionStates (g : Graph) (t : Nat) : List Graph :=
  partitionStatesGo t (g.edges.length + 1) g

/-- The connected-component counts across the iterations of the partition
loop: the initial count followed by the count after each removal. -/
def componentCounts (g : Graph) (t : Nat) : List Nat :=
  (g :: partitionStates g t).map numComponents

/-- Concrete two-node graph with a single edge. -/
def gAB : Graph :=
  ⟨[⟨"a", []⟩, ⟨"b", []⟩], [⟨"a", "b", none, none⟩]⟩

/-- Concrete triangle graph. -/
def gTri : Graph :=
  ⟨[⟨"a", []⟩, ⟨"b", []⟩, ⟨"c", []⟩],
   [⟨"a", "b", none, none⟩, ⟨"b", "c", none, none⟩, ⟨"c", "a", none, none⟩]⟩

/-- Concrete three-node path graph. -/
def gPath : Graph :=
  ⟨[⟨"a", []⟩, ⟨"b", []⟩, ⟨"c", []⟩],
   [⟨"a", "b", none, none⟩, ⟨"b", "c", none, none⟩]⟩

/-- Concrete four-cycle with one negative edge sign: it has no odd cycle. -/
def gSq : Graph :=
  ⟨[⟨"a", []⟩, ⟨"b", []⟩, ⟨"c", []⟩, ⟨"d", []⟩],
   [⟨"a", "b", none, some (-1)⟩, ⟨"b", "c", none, some 1⟩,
    ⟨"c", "d", none, some 1⟩, ⟨"d", "a", none, some 1⟩]⟩

/-- Concrete graph with colored edges and no signs yet. -/
def gCol : Graph :=
  ⟨[⟨"a", []⟩, ⟨"b", []⟩, ⟨"c", []⟩],
   [⟨"a", "b", some "r", none⟩, ⟨"b", "c", some "b", none⟩]⟩

/-- Concrete attribute-consistent graph: equal colors joined by sign 1,
different colors joined by sign -1. -/
def gBal : Graph :=
  ⟨[⟨"a", [("color", "x")]⟩, ⟨"b", [("color", "x")]⟩, ⟨"c", [("color", "y")]⟩],
   [⟨"a", "b", none, some 1⟩, ⟨"b", "c", none, some (-1)⟩]⟩

/-- Concrete edgeless graph whose single node carries no attributes. -/
def gIso : Graph := ⟨[⟨"a", []⟩], []⟩

/-- Concrete two-edge graph for the homophily proportion. -/
def gHom : Graph :=
  ⟨[⟨"a", []⟩, ⟨"b", []⟩, ⟨"c", []⟩],
   [⟨"a", "b", none, none⟩, ⟨"b", "c", none, none⟩]⟩

/-- Concrete external color map for the homophily check. -/
def cmHom : List (String × String) := [("a", "x"), ("b", "x"), ("c", "y")]

/-- One-step relation underlying reachability: adjacency into a node of the
graph. -/
def Rel (g : Graph) (a b : String) : Prop :=
  adjacent g a b = true ∧ b ∈ nodeNames g

/-- A node set closed under adjacency within the graph. -/
def Closed (g : Graph) (S : List String) : Prop :=
  ∀ v ∈ nodeNames g, (∃ u ∈ S, adjacent g u v = true) → v ∈ S

/-- Number of nodes of the graph missing from a set, the measure that shrinks
at every proper saturation step. -/
def miss (g : Graph) (S : List String) : Nat :=
  ((nodeNames g).filter (fun v => !S.contains v)).length

/-! Theorems. -/

theorem deriveSign_deriveSign (e : Edge) : deriveSign (deriveSign e) = deriveSign e := by
  by_cases h : e.color = some "r" <;> simp [deriveSign, h]

/-- C7: after sign derivation every edge has sign -1 exactly when its color is
the string r (and sign 1 otherwise), and deriving twice equals deriving once. -/
theorem C7_sign_derivation (g : Graph) :
    (∀ e ∈ (deriveSigns g).edges,
      (e.sign = some (-1) ↔ e.color = some "r") ∧
      (e.color ≠ some "r" → e.sign = some 1)) ∧
    deriveSigns (deriveSigns g) = deriveSigns g := by
  constructor
  · intro e he
    simp only [deriveSigns, List.mem_map] at he
    obtain ⟨e0, _, rfl⟩ := he
    by_cases h : e0.color = some "r" <;> simp [deriveSign, h]
  · simp [deriveSigns, List.map_map, Function.comp_def, deriveSign_deriveSign]

/-- Witness for C7 on a concrete colored graph. -/
theorem C7_sign_derivation_witness :
    ((Edge.mk "a" "b" (some "r") (some (-1))).sign = some (-1) ↔
      (Edge.mk "a" "b" (some "r") (some (-1))).color = some "r") ∧
    deriveSigns (deriveSigns gCol) = deriveSigns gCol :=
  ⟨((C7_sign_derivation gCol).1 (Edge.mk "a" "b" (some "r") (some (-1))) (by decide)).1,
   (C7_sign_derivation gCol).2⟩

/-- C10: the attribute balance check is true on every graph without edges,
whatever attributes its nodes carry. -/
theorem C10_no_edges_attribute_balance (g : Graph) (a : String) (h : g.edges = []) :
    is_graph_balanced_by_node_attributes g a = true := by
  simp [is_graph_balanced_by_node_attributes, h, balancedByAttrGo]

/-- Witness for C10: an edgeless graph whose node lacks the attribute. -/
theorem C10_no_edges_attribute_balance_witness :
    gIso.edges = [] ∧ nodeAttr gIso "a" "color" = none ∧
    is_graph_balanced_by_node_attributes gIso "color" = true :=
  ⟨rfl, rfl, C10_no_edges_attribute_balance gIso "color" rfl⟩

theorem balancedByAttrGo_eq_true_iff (g : Graph) (a : String) (es : List Edge) :
    balancedByAttrGo g a es = true ↔
      ∀ e ∈ es, ((nodeAttr g e.u a).isSome ∧ (nodeAttr g e.v a).isSome) ∧
        (nodeAttr g e.u a = nodeAttr g e.v a → getSign e = 1) ∧
        (nodeAttr g e.u a ≠ nodeAttr g e.v a → getSign e = -1) := by
  induction es with
  | nil => simp [balancedByAttrGo]
  | cons e es ih =>
    rcases hu : nodeAttr g e.u a with _ | au
    · simp [balancedByAttrGo, hu]
    · rcases hv : nodeAttr g e.v a with _ | av
      · simp [balancedByAttrGo, hu, hv]
      · by_cases hav : au = av
        · subst hav
          by_cases hs : getSign e = 1
          · simp [balancedByAttrGo, hu, hv, hs, ih]
          · simp [balancedByAttrGo, hu, hv, hs]
        · by_cases hs : getSign e = -1
          · simp [balancedByAttrGo, hu, hv, hav, hs, ih]
          · simp [balancedByAttrGo, hu, hv, hav, hs]

/-- C3: the attribute balance check is true exactly when every edge has both
endpoints carrying the attribute and the sign matches the rule (equal values
need sign 1, different values need sign -1); an edge with an endpoint lacking
the attribute makes it false. -/
theorem C3_attribute_balance_iff (g : Graph) (a : String) :
    is_graph_balanced_by_node_attributes g a = true ↔
      ∀ e ∈ g.edges, ((nodeAttr g e.u a).isSome ∧ (nodeAttr g e.v a).isSome) ∧
        (nodeAttr g e.u a = nodeAttr g e.v a → getSign e = 1) ∧
        (nodeAttr g e.u a ≠ nodeAttr g e.v a → getSign e = -1) :=
  balancedByAttrGo_eq_true_iff g a g.edges

/-- Witness for C3 on a concrete attribute-consistent graph. -/
theorem C3_attribute_balance_iff_witness :
    is_graph_balanced_by_node_attributes gBal "color" = true :=
  (C3_attribute_balance_iff gBal "color").mpr (by decide)

theorem balancedGo_eq_false_iff (g : Graph) (L : List (List String)) :
    balancedGo g L = false ↔ ∃ c ∈ L, c.length % 2 = 1 ∧ negEdgeCount g c % 2 = 1 := by
  induction L with
  | nil => simp [balancedGo]
  | cons c L ih =>
    by_cases h1 : c.length % 2 = 1
    · by_cases h2 : negEdgeCount g c % 2 = 1
      · simp [balancedGo, h1, h2]
      · simp [balancedGo, h1, h2, ih]
    · simp [balancedGo, h1, ih]

/-- C2: the cycle balance check returns false exactly when some odd-length
simple cycle carries an odd number of edges of sign -1; in particular it
returns true on every graph without odd-length simple cycles. -/
theorem C2_cycle_balance (g : Graph) :
    (is_graph_balanced g = false ↔
      ∃ c ∈ simpleCycles g, c.length % 2 = 1 ∧ negEdgeCount g c % 2 = 1) ∧
    ((∀ c ∈ simpleCycles g, c.length % 2 ≠ 1) → is_graph_balanced g = true) := by
  have h : is_graph_balanced g = false ↔
      ∃ c ∈ simpleCycles g, c.length % 2 = 1 ∧ negEdgeCount g c % 2 = 1 :=
    balancedGo_eq_false_iff g (simpleCycles g)
  refine ⟨h, fun hno => ?_⟩
  cases hb : is_graph_balanced g with
  | false =>
    obtain ⟨c, hc, h1, _⟩ := h.mp hb
    exact absurd h1 (hno c hc)
  | true => rfl

/-- Witness for C2 on the four-cycle with one negative edge: no odd cycle, so
balanced whatever the signs. -/
theorem C2_cycle_balance_witness :
    (is_graph_balanced gSq = false ↔
      ∃ c ∈ simpleCycles gSq, c.length % 2 = 1 ∧ negEdgeCount gSq c % 2 = 1) ∧
    is_graph_balanced gSq = true :=
  ⟨(C2_cycle_balance gSq).1, (C2_cycle_balance gSq).2 (by decide)⟩

/-- C8: the homophily block prints the cannot-determine outcome on a graph
without edges, and forms the proportion same over total only when the total
count is positive. -/
theorem C8_homophily_no_edges (g : Graph) (cm : List (String × String)) :
    (g.edges = [] → verify_homophily g cm = HomophilyOutcome.cannotDetermine) ∧
    (∀ s d : Nat, countColors cm g.edges = some (s, d) → 0 < s + d →
      verify_homophily g cm = HomophilyOutcome.proportion ((s : ℚ) / ((s : ℚ) + (d : ℚ)))) := by
  constructor
  · intro h
    simp [verify_homophily, h, countColors]
  · intro s d hc hpos
    simp [verify_homophily, hc, hpos]

/-- Witness for C8: the edgeless graph gives the cannot-determine outcome, and
a two-edge graph with one agreeing edge gives the proportion. -/
theorem C8_homophily_no_edges_witness :
    verify_homophily gIso [] = HomophilyOutcome.cannotDetermine ∧
    verify_homophily gHom cmHom =
      HomophilyOutcome.proportion (((1 : Nat) : ℚ) / (((1 : Nat) : ℚ) + ((1 : Nat) : ℚ))) :=
  ⟨(C8_homophily_no_edges gIso []).1 rfl,
   (C8_homophily_no_edges gHom cmHom).2 1 1 (by decide) (by decide)⟩

theorem allPositive_adjacent (g : Graph) (u v : String) :
    adjacent (allPositive g) u v = adjacent g u v := by
  simp only [adjacent, allPositive, List.any_map]
  rfl

theorem allPositive_simpleCycles (g : Graph) :
    simpleCycles (allPositive g) = simpleCycles g := by
  unfold simpleCycles
  have h1 : nodeNames (allPositive g) = nodeNames g := rfl
  rw [h1]
  apply List.filter_congr
  intro c _
  unfold isSimpleCycle
  rw [decide_eq_decide]
  rw [h1]
  constructor <;>
    exact fun h => ⟨h.1, h.2.1, h.2.2.1, fun p hp => by
      have h4 := h.2.2.2 p hp
      rw [allPositive_adjacent] at *
      assumption⟩

theorem allPositive_edgeSign (g : Graph) (hnone : ∀ e ∈ g.edges, e.sign = none)
    (u v : String) : edgeSign (allPositive g) u v = edgeSign g u v := by
  have hpf : ((fun e : Edge => (e.u == u && e.v == v) || (e.u == v && e.v == u)) ∘
      (fun e : Edge => { e with sign := some 1 })) =
      (fun e : Edge => (e.u == u && e.v == v) || (e.u == v && e.v == u)) := rfl
  unfold edgeSign findEdge
  show (match ((g.edges.map (fun e => { e with sign := some 1 })).find? _) with
    | some e => getSign e | none => 1) = _
  rw [List.find?_map, hpf]
  cases hf : g.edges.find?
      (fun e => (e.u == u && e.v == v) || (e.u == v && e.v == u)) with
  | none => rfl
  | some e =>
    have he : e ∈ g.edges := List.mem_of_find?_eq_some hf
    have hs : e.sign = none := hnone e he
    show getSign { e with sign := some 1 } = getSign e
    simp [getSign, hs]

theorem allPositive_negEdgeCount (g : Graph) (hnone : ∀ e ∈ g.edges, e.sign = none)
    (c : List String) : negEdgeCount (allPositive g) c = negEdgeCount g c := by
  unfold negEdgeCount
  apply List.countP_congr
  intro p _
  simp [allPositive_edgeSign g hnone]

theorem balancedGo_congr (g1 g2 : Graph)
    (h : ∀ c, negEdgeCount g1 c = negEdgeCount g2 c) :
    ∀ L, balancedGo g1 L = balancedGo g2 L := by
  intro L
  induction L with
  | nil => rfl
  | cons c L ih => simp [balancedGo, h c, ih]

theorem balancedByAttrGo_allPositive (g : Graph) (a : String) :
    ∀ es, (∀ e ∈ es, e.sign = none) →
      balancedByAttrGo (allPositive g) a (es.map (fun e => { e with sign := some 1 })) =
        balancedByAttrGo g a es := by
  intro es
  induction es with
  | nil => intro _; rfl
  | cons e es ih =>
    intro h
    have he : e.sign = none := h e (List.mem_cons_self e es)
    have hrest : ∀ x ∈ es, x.sign = none := fun x hx => h x (List.mem_cons_of_mem e hx)
    have hgs : getSign { e with sign := some 1 } = getSign e := by simp [getSign, he]
    have hattr : nodeAttr (allPositive g) = nodeAttr g := rfl
    simp only [List.map_cons, balancedByAttrGo, hattr, hgs, ih hrest]

/-- C9: on a graph whose edges carry no sign attribute, both balance checks
behave exactly as on the graph whose edges all carry the explicit sign 1,
because the sign is read with default 1. -/
theorem C9_default_sign (g : Graph) (a : String) (h : ∀ e ∈ g.edges, e.sign = none) :
    is_graph_balanced g = is_graph_balanced (allPositive g) ∧
    is_graph_balanced_by_node_attributes g a =
      is_graph_balanced_by_node_attributes (allPositive g) a := by
  constructor
  · unfold is_graph_balanced
    rw [allPositive_simpleCycles]
    exact (balancedGo_congr (allPositive g) g
      (fun c => allPositive_negEdgeCount g h c) (simpleCycles g)).symm
  · unfold is_graph_balanced_by_node_attributes
    exact (balancedByAttrGo_allPositive g a g.edges h).symm

/-- Witness for C9 on the unsigned triangle. -/
theorem C9_default_sign_witness :
    is_graph_balanced gTri = is_graph_balanced (allPositive gTri) ∧
    is_graph_balanced_by_node_attributes gTri "color" =
      is_graph_balanced_by_node_attributes (allPositive gTri) "color" :=
  C9_default_sign gTri "color" (by decide)

theorem adjacent_iff (g : Graph) (u v : String) :
    adjacent g u v = true ↔
      ∃ e ∈ g.edges, (e.u = u ∧ e.v = v) ∨ (e.u = v ∧ e.v = u) := by
  simp [adjacent, List.any_eq_true]

theorem adjacent_symm (g : Graph) (u v : String) (h : adjacent g u v = true) :
    adjacent g v u = true := by
  rw [adjacent_iff] at h ⊢
  obtain ⟨e, he, hor⟩ := h
  exact ⟨e, he, hor.symm⟩

theorem mem_closeStep (g : Graph) (S : List String) (x : String) :
    x ∈ closeStep g S ↔
      x ∈ S ∨ (x ∈ nodeNames g ∧ x ∉ S ∧ ∃ u ∈ S, adjacent g u x = true) := by
  simp [closeStep, List.mem_filter, List.any_eq_true]

theorem subset_closeStep (g : Graph) (S : List String) : S ⊆ closeStep g S :=
  List.subset_append_left _ _

theorem subset_closureN (g : Graph) : ∀ (n : Nat) (S : List String), S ⊆ closureN g n S := by
  intro n
  induction n with
  | zero => intro S x hx; exact hx
  | succ n ih => intro S x hx; exact ih (closeStep g S) (subset_closeStep g S hx)

theorem closureN_sound (g : Graph) : ∀ (n : Nat) (S : List String) (x : String),
    x ∈ closureN g n S → ∃ u ∈ S, Relation.ReflTransGen (Rel g) u x := by
  intro n
  induction n with
  | zero => intro S x hx; exact ⟨x, hx, Relation.ReflTransGen.refl⟩
  | succ n ih =>
    intro S x hx
    obtain ⟨u, hu, hux⟩ := ih (closeStep g S) x hx
    rcases (mem_closeStep g S u).mp hu with h | ⟨hmem, _, w, hw, hadj⟩
    · exact ⟨u, h, hux⟩
    · exact ⟨w, hw, Relation.ReflTransGen.head ⟨hadj, hmem⟩ hux⟩

theorem closeStep_of_closed (g : Graph) (S : List String) (h : Closed g S) :
    closeStep g S = S := by
  unfold closeStep
  have hnil : (nodeNames g).filter
      (fun v => !S.contains v && S.any (fun u => adjacent g u v)) = [] := by
    rw [List.filter_eq_nil_iff]
    intro v hv hp
    rw [Bool.and_eq_true] at hp
    have hvmem : v ∈ S := h v hv (by
      obtain ⟨u, hu, ha⟩ := List.any_eq_true.mp hp.2
      exact ⟨u, hu, ha⟩)
    have := hp.1
    simp at this
    exact this hvmem
  rw [hnil, List.append_nil]

theorem closureN_of_closed (g : Graph) : ∀ (n : Nat) (S : List String),
    Closed g S → closureN g n S = S := by
  intro n
  induction n with
  | zero => intro S _; rfl
  | succ n ih =>
    intro S h
    show closureN g n (closeStep g S) = S
    rw [closeStep_of_closed g S h]
    exact ih S h

theorem countP_le_of_imp {α : Type} (p q : α → Bool) :
    ∀ l : List α, (∀ a ∈ l, p a = true → q a = true) → l.countP p ≤ l.countP q := by
  intro l
  induction l with
  | nil => intro _; exact Nat.le_refl 0
  | cons b l ih =>
    intro h
    rw [List.countP_cons, List.countP_cons]
    have h1 := ih (fun a ha => h a (List.mem_cons_of_mem b ha))
    by_cases hb : p b = true
    · have hqb := h b (List.mem_cons_self b l) hb
      rw [if_pos hb, if_pos hqb]
      omega
    · rw [if_neg hb]
      split <;> omega

theorem countP_lt_of_witness {α : Type} (p q : α → Bool) :
    ∀ l : List α, (∀ a ∈ l, p a = true → q a = true) → ∀ a0 ∈ l,
      q a0 = true → p a0 = false → l.countP p < l.countP q := by
  intro l
  induction l with
  | nil => intro _ a0 h0; cases h0
  | cons b l ih =>
    intro himp a0 h0 hq hp
    rw [List.countP_cons, List.countP_cons]
    have hle := countP_le_of_imp p q l (fun a ha => himp a (List.mem_cons_of_mem b ha))
    rcases List.mem_cons.mp h0 with rfl | h0'
    · have hpn : ¬ p a0 = true := by rw [hp]; exact Bool.false_ne_true
      rw [if_neg hpn, if_pos hq]
      omega
    · have hlt := ih (fun a ha => himp a (List.mem_cons_of_mem b ha)) a0 h0' hq hp
      by_cases hb : p b = true
      · have hqb := himp b (List.mem_cons_self b l) hb
        rw [if_pos hb, if_pos hqb]
        omega
      · rw [if_neg hb]
        split <;> omega

theorem miss_le (g : Graph) (S : List String) : miss g S ≤ (nodeNames g).length :=
  List.length_filter_le _ _

theorem miss_zero_mem (g : Graph) (S : List String) (h : miss g S = 0) :
    ∀ v ∈ nodeNames g, v ∈ S := by
  intro v hv
  unfold miss at h
  rw [List.length_eq_zero, List.filter_eq_nil_iff] at h
  have := h v hv
  simp at this
  exact this

theorem miss_closeStep_lt (g : Graph) (S : List String) (hne : ¬ Closed g S) :
    miss g (closeStep g S) < miss g S := by
  unfold Closed at hne
  push_neg at hne
  obtain ⟨v, hv, hex, hvS⟩ := hne
  unfold miss
  rw [← List.countP_eq_length_filter, ← List.countP_eq_length_filter]
  apply countP_lt_of_witness _ _ (nodeNames g) ?_ v hv ?_ ?_
  · intro a _ ha
    simp only [Bool.not_eq_true', List.contains_eq_any_beq] at ha ⊢
    rw [List.any_eq_false] at ha ⊢
    intro x hx
    exact ha x (subset_closeStep g S hx)
  · simp only [Bool.not_eq_true', List.contains_eq_any_beq]
    rw [List.any_eq_false]
    intro x hx
    simp only [beq_iff_eq]
    intro hxv
    exact hvS (hxv ▸ hx)
  · have hvC : v ∈ closeStep g S := (mem_closeStep g S v).mpr (Or.inr ⟨hv, hvS, hex⟩)
    have hany : (closeStep g S).any (fun x => v == x) = true :=
      List.any_eq_true.mpr ⟨v, hvC, by simp⟩
    rw [List.contains_eq_any_beq, hany]
    rfl

theorem closureN_closed (g : Graph) : ∀ (n : Nat) (S : List String),
    miss g S ≤ n → Closed g (closureN g n S) := by
  intro n
  induction n with
  | zero =>
    intro S h
    intro v hv _
    exact miss_zero_mem g S (Nat.le_zero.mp h) v hv
  | succ n ih =>
    intro S h
    by_cases hc : Closed g S
    · show Closed g (closureN g n (closeStep g S))
      rw [closeStep_of_closed g S hc, closureN_of_closed g n S hc]
      exact hc
    · have hlt := miss_closeStep_lt g S hc
      exact ih (closeStep g S) (by omega)

theorem reachable_complete (g : Graph) (u v : String)
    (h : Relation.ReflTransGen (Rel g) u v) : reachable g u v = true := by
  have hcl : Closed g (closureN g (nodeNames g).length [u]) :=
    closureN_closed g (nodeNames g).length [u] (miss_le g [u])
  have hu : u ∈ closureN g (nodeNames g).length [u] :=
    subset_closureN g (nodeNames g).length [u] (List.mem_singleton_self u)
  unfold reachable
  simp only [List.contains_eq_any_beq, List.any_eq_true]
  refine ⟨v, ?_, by simp⟩
  induction h with
  | refl => exact hu
  | tail _ hstep ih => exact hcl _ hstep.2 ⟨_, ih, hstep.1⟩

theorem reachable_sound (g : Graph) (u v : String) (h : reachable g u v = true) :
    Relation.ReflTransGen (Rel g) u v := by
  unfold reachable at h
  simp only [List.contains_eq_any_beq, List.any_eq_true, beq_iff_eq] at h
  obtain ⟨x, hx, hxv⟩ := h
  obtain ⟨w, hw, hrtg⟩ := closureN_sound g (nodeNames g).length [u] x hx
  rw [List.mem_singleton] at hw
  subst hw
  rw [hxv]
  exact hrtg

theorem reachable_iff (g : Graph) (u v : String) :
    reachable g u v = true ↔ Relation.ReflTransGen (Rel g) u v :=
  ⟨reachable_sound g u v, reachable_complete g u v⟩

theorem rtg_mem (g : Graph) (u v : String) (h : Relation.ReflTransGen (Rel g) u v) :
    v = u ∨ v ∈ nodeNames g := by
  induction h with
  | refl => exact Or.inl rfl
  | tail _ hstep _ => exact Or.inr hstep.2

theorem rtg_symm (g : Graph) (u v : String) (hu : u ∈ nodeNames g)
    (h : Relation.ReflTransGen (Rel g) u v) : Relation.ReflTransGen (Rel g) v u := by
  induction h with
  | refl => exact Relation.ReflTransGen.refl
  | @tail b c hab hstep ih =>
    have hbmem : b ∈ nodeNames g := by
      rcases rtg_mem g u b hab with rfl | hm
      · exact hu
      · exact hm
    exact Relation.ReflTransGen.head ⟨adjacent_symm g b c hstep.1, hbmem⟩ ih

theorem reachable_refl (g : Graph) (u : String) : reachable g u u = true :=
  (reachable_iff g u u).mpr Relation.ReflTransGen.refl

theorem repOf_spec (g : Graph) (u : String) (hu : u ∈ nodeNames g) :
    repOf g u ∈ nodeNames g ∧ reachable g u (repOf g u) = true := by
  unfold repOf
  cases hf : (nodeNames g).find? (fun w => reachable g u w) with
  | none =>
    exfalso
    have hsome : ((nodeNames g).find? (fun w => reachable g u w)).isSome := by
      rw [List.find?_isSome]
      exact ⟨u, hu, reachable_refl g u⟩
    rw [hf] at hsome
    cases hsome
  | some r =>
    exact ⟨List.mem_of_find?_eq_some hf, List.find?_some hf⟩

theorem reachable_congr_pred (g : Graph) (u v : String) (hu : u ∈ nodeNames g)
    (h : reachable g u v = true) : ∀ w, reachable g u w = reachable g v w := by
  intro w
  have h1 := reachable_sound g u v h
  rw [Bool.eq_iff_iff]
  constructor
  · intro h2
    exact reachable_complete g v w
      ((rtg_symm g u v hu h1).trans (reachable_sound g u w h2))
  · intro h2
    exact reachable_complete g u w (h1.trans (reachable_sound g v w h2))

theorem repOf_eq_of_reachable (g : Graph) (u v : String) (hu : u ∈ nodeNames g)
    (hv : v ∈ nodeNames g) (h : reachable g u v = true) : repOf g u = repOf g v := by
  unfold repOf
  have hpred : (fun w => reachable g u w) = (fun w => reachable g v w) :=
    funext (reachable_congr_pred g u v hu h)
  rw [hpred]
  cases hf : (nodeNames g).find? (fun w => reachable g v w) with
  | none =>
    exfalso
    have hsome : ((nodeNames g).find? (fun w => reachable g v w)).isSome := by
      rw [List.find?_isSome]
      exact ⟨v, hv, reachable_refl g v⟩
    rw [hf] at hsome
    cases hsome
  | some r => rfl

theorem adjacent_removeEdge (g : Graph) (e : Edge) (u v : String)
    (h : adjacent (removeEdge g e) u v = true) : adjacent g u v = true := by
  rw [adjacent_iff] at h ⊢
  obtain ⟨e2, he2, hor⟩ := h
  exact ⟨e2, List.mem_of_mem_filter he2, hor⟩

theorem reachable_removeEdge (g : Graph) (e : Edge) (u v : String)
    (h : reachable (removeEdge g e) u v = true) : reachable g u v = true := by
  rw [reachable_iff] at h ⊢
  exact Relation.ReflTransGen.mono
    (fun a b hab => ⟨adjacent_removeEdge g e a b hab.1, hab.2⟩) h

theorem numComponents_le_numNodes (g : Graph) : numComponents g ≤ numNodes g := by
  unfold numComponents numNodes
  calc ((nodeNames g).map (repOf g)).toFinset.card
      ≤ ((nodeNames g).map (repOf g)).length := List.toFinset_card_le _
    _ = (nodeNames g).length := List.length_map _ _

theorem numComponents_mono (g : Graph) (e : Edge) :
    numComponents g ≤ numComponents (removeEdge g e) := by
  unfold numComponents
  apply Finset.card_le_card_of_surjOn (repOf g)
  intro x hx
  simp only [Finset.coe_sort_coe, Finset.mem_coe, List.mem_toFinset, List.mem_map] at hx
  obtain ⟨u, hu, rfl⟩ := hx
  refine (Set.mem_image _ _ _).mpr ⟨repOf (removeEdge g e) u, ?_, ?_⟩
  · simp only [Finset.mem_coe, List.mem_toFinset, List.mem_map]
    exact ⟨u, hu, rfl⟩
  · have hspec := repOf_spec (removeEdge g e) u hu
    have hreach : reachable g u (repOf (removeEdge g e) u) = true :=
      reachable_removeEdge g e u _ hspec.2
    exact (repOf_eq_of_reachable g u _ hu hspec.1 hreach).symm

theorem foldl_pickHigher_mem (g : Graph) : ∀ (es : List Edge) (init : Edge),
    es.foldl (pickHigher g) init ∈ init :: es := by
  intro es
  induction es with
  | nil => intro init; exact List.mem_singleton_self init
  | cons b es ih =>
    intro init
    rw [List.foldl_cons]
    rcases List.mem_cons.mp (ih (pickHigher g init b)) with heq | hmem
    · rw [heq]
      unfold pickHigher
      split
      · exact List.mem_cons_of_mem init (List.mem_cons_self b es)
      · exact List.mem_cons_self init (b :: es)
    · exact List.mem_cons_of_mem init (List.mem_cons_of_mem b hmem)

theorem argmaxEdge_mem (g : Graph) (e : Edge) (h : argmaxEdge g = some e) :
    e ∈ g.edges := by
  unfold argmaxEdge at h
  cases hg : g.edges with
  | nil => rw [hg] at h; cases h
  | cons a es =>
    rw [hg] at h
    injection h with h
    rw [← h]
    exact foldl_pickHigher_mem g es a

theorem sameEnds_self (e : Edge) : sameEnds e e = true := by
  simp [sameEnds]

theorem length_filter_lt {α : Type} (p : α → Bool) :
    ∀ (l : List α) (a : α), a ∈ l → p a = false → (l.filter p).length < l.length := by
  intro l
  induction l with
  | nil => intro a ha _; cases ha
  | cons b l ih =>
    intro a ha hp
    rw [List.filter_cons]
    rcases List.mem_cons.mp ha with rfl | ha'
    · have hna : ¬ p a = true := by rw [hp]; exact Bool.false_ne_true
      rw [if_neg hna]
      exact Nat.lt_succ_of_le (List.length_filter_le p l)
    · have hlt := ih a ha' hp
      split
      · simp only [List.length_cons]; omega
      · simp only [List.length_cons]; omega

theorem removeEdge_length_lt (g : Graph) (e : Edge) (h : e ∈ g.edges) :
    (removeEdge g e).edges.length < g.edges.length := by
  show (g.edges.filter (fun e2 => !sameEnds e2 e)).length < g.edges.length
  apply length_filter_lt _ g.edges e h
  rw [sameEnds_self]
  rfl

theorem partitionGo_succ_none (t fuel : Nat) (g : Graph) (ha : argmaxEdge g = none) :
    partitionGo t (fuel + 1) g = none := by
  show (match argmaxEdge g with
    | none => none
    | some e =>
      if t ≤ numComponents (removeEdge g e) then some (removeEdge g e)
      else partitionGo t fuel (removeEdge g e)) = none
  rw [ha]

theorem partitionGo_succ_some (t fuel : Nat) (g : Graph) (e : Edge)
    (ha : argmaxEdge g = some e) :
    partitionGo t (fuel + 1) g =
      if t ≤ numComponents (removeEdge g e) then some (removeEdge g e)
      else partitionGo t fuel (removeEdge g e) := by
  show (match argmaxEdge g with
    | none => none
    | some e =>
      if t ≤ numComponents (removeEdge g e) then some (removeEdge g e)
      else partitionGo t fuel (removeEdge g e)) = _
  rw [ha]

theorem partitionStatesGo_succ_none (t fuel : Nat) (g : Graph)
    (ha : argmaxEdge g = none) : partitionStatesGo t (fuel + 1) g = [] := by
  show (match argmaxEdge g with
    | none => []
    | some e =>
      if t ≤ numComponents (removeEdge g e) then [removeEdge g e]
      else removeEdge g e :: partitionStatesGo t fuel (removeEdge g e)) = []
  rw [ha]

theorem partitionStatesGo_succ_some (t fuel : Nat) (g : Graph) (e : Edge)
    (ha : argmaxEdge g = some e) :
    partitionStatesGo t (fuel + 1) g =
      if t ≤ numComponents (removeEdge g e) then [removeEdge g e]
      else removeEdge g e :: partitionStatesGo t fuel (removeEdge g e) := by
  show (match argmaxEdge g with
    | none => []
    | some e =>
      if t ≤ numComponents (removeEdge g e) then [removeEdge g e]
      else removeEdge g e :: partitionStatesGo t fuel (removeEdge g e)) = _
  rw [ha]

theorem partitionGo_none (t : Nat) : ∀ (fuel : Nat) (g : Graph),
    g.edges.length < fuel → numNodes g < t → partitionGo t fuel g = none := by
  intro fuel
  induction fuel with
  | zero => intro g hlen _; exact absurd hlen (Nat.not_lt_zero _)
  | succ fuel ih =>
    intro g hlen ht
    cases ha : argmaxEdge g with
    | none => exact partitionGo_succ_none t fuel g ha
    | some e =>
      have hm : e ∈ g.edges := argmaxEdge_mem g e ha
      have h2 : numComponents (removeEdge g e) < t :=
        lt_of_le_of_lt (numComponents_le_numNodes (removeEdge g e)) ht
      rw [partitionGo_succ_some t fuel g e ha,
        if_neg (by omega : ¬ t ≤ numComponents (removeEdge g e))]
      have hlen2 : (removeEdge g e).edges.length < fuel := by
        have := removeEdge_length_lt g e hm
        omega
      exact ih (removeEdge g e) hlen2 ht

/-- C4: a target exceeding the node count can never be reached, and the loop
then terminates in the failure state (the error Python max raises on the
empty betweenness mapping once no edges remain) rather than looping forever;
termination itself is given by the loop being a total function of the
fuel-free edge count. -/
theorem C4_unreachable_target (g : Graph) (t : Nat) (h : numNodes g < t) :
    partitionLoop g t = none :=
  partitionGo_none t (g.edges.length + 1) g (Nat.lt_succ_self _) h

/-- Witness for C4: a two-node graph cannot be split into three components. -/
theorem C4_unreachable_target_witness :
    numNodes gAB < 3 ∧ partitionLoop gAB 3 = none :=
  ⟨by decide, C4_unreachable_target gAB 3 (by decide)⟩

/-- C1 amended: when the graph already has at least the target number of
components the loop is not a no-op; it performs exactly one pass, removing
the single highest-betweenness edge (or failing on an edgeless graph), and
stops. -/
theorem C1_already_partitioned (g : Graph) (t : Nat) (_h1 : 1 ≤ t)
    (h2 : t ≤ numComponents g) :
    partitionLoop g t = (argmaxEdge g).map (fun e => removeEdge g e) := by
  unfold partitionLoop
  cases ha : argmaxEdge g with
  | none => rw [partitionGo_succ_none t g.edges.length g ha]; rfl
  | some e =>
    rw [partitionGo_succ_some t g.edges.length g e ha,
      if_pos (le_trans h2 (numComponents_mono g e))]
    rfl

/-- Witness for C1 amended: the two-node one-edge graph already has one
component, and the loop still removes its edge. -/
theorem C1_already_partitioned_witness :
    1 ≤ numComponents gAB ∧
    partitionLoop gAB 1 = (argmaxEdge gAB).map (fun e => removeEdge gAB e) :=
  ⟨by decide, C1_already_partitioned gAB 1 (by decide) (by decide)⟩

/-- Counterexample to C1 as stated: the two-node one-edge graph already has
one component, yet partitioning to one component removes its edge instead of
leaving the graph unchanged. -/
theorem C1_not_noop_counterexample :
    1 ≤ numComponents gAB ∧
    partitionLoop gAB 1 = some (Graph.mk [Node.mk "a" [], Node.mk "b" []] []) ∧
    partitionLoop gAB 1 ≠ some gAB :=
  ⟨by decide, by decide, by decide⟩

theorem partitionStatesGo_dropLast (t : Nat) : ∀ (fuel : Nat) (g : Graph),
    ∀ s ∈ (partitionStatesGo t fuel g).dropLast, numComponents s < t := by
  intro fuel
  induction fuel with
  | zero => intro g s hs; cases hs
  | succ fuel ih =>
    intro g s hs
    cases ha : argmaxEdge g with
    | none => rw [partitionStatesGo_succ_none t fuel g ha] at hs; cases hs
    | some e =>
      rw [partitionStatesGo_succ_some t fuel g e ha] at hs
      by_cases hc : t ≤ numComponents (removeEdge g e)
      · rw [if_pos hc] at hs
        cases hs
      · rw [if_neg hc] at hs
        cases hrest : partitionStatesGo t fuel (removeEdge g e) with
        | nil => rw [hrest] at hs; cases hs
        | cons r rs =>
          rw [hrest, List.dropLast_cons₂] at hs
          rcases List.mem_cons.mp hs with rfl | hs'
          · exact Nat.lt_of_not_le hc
          · have := ih (removeEdge g e) s (by rw [hrest]; exact hs')
            exact this

theorem partitionGo_last (t : Nat) : ∀ (fuel : Nat) (g g2 : Graph),
    partitionGo t fuel g = some g2 →
      (partitionStatesGo t fuel g).getLast? = some g2 ∧ t ≤ numComponents g2 := by
  intro fuel
  induction fuel with
  | zero => intro g g2 h; cases h
  | succ fuel ih =>
    intro g g2 h
    cases ha : argmaxEdge g with
    | none => rw [partitionGo_succ_none t fuel g ha] at h; cases h
    | some e =>
      rw [partitionGo_succ_some t fuel g e ha] at h
      rw [partitionStatesGo_succ_some t fuel g e ha]
      by_cases hc : t ≤ numComponents (removeEdge g e)
      · rw [if_pos hc] at h
        rw [if_pos hc]
        injection h with h
        subst h
        exact ⟨rfl, hc⟩
      · rw [if_neg hc] at h
        rw [if_neg hc]
        obtain ⟨h1, h2⟩ := ih (removeEdge g e) g2 h
        refine ⟨?_, h2⟩
        cases hrest : partitionStatesGo t fuel (removeEdge g e) with
        | nil => rw [hrest] at h1; cases h1
        | cons r rs =>
          rw [hrest] at h1
          rw [List.getLast?_cons_cons]
          exact h1

/-- C5 amended: within the loop the stopping check runs only after each
removal; every intermediate state except the final one still has fewer
components than the target, and the loop result is exactly the first state
reaching the target.  The check never runs before the first removal, so one
edge is removed even when the initial graph already meets the target. -/
theorem C5_stops_at_first_threshold (g : Graph) (t : Nat) :
    (∀ s ∈ (partitionStates g t).dropLast, numComponents s < t) ∧
    (∀ g2, partitionLoop g t = some g2 →
      (partitionStates g t).getLast? = some g2 ∧ t ≤ numComponents g2) :=
  ⟨fun s hs => partitionStatesGo_dropLast t (g.edges.length + 1) g s hs,
   fun g2 h => partitionGo_last t (g.edges.length + 1) g g2 h⟩

/-- Witness for C5 amended on the three-node path split into singletons. -/
theorem C5_stops_at_first_threshold_witness :
    numComponents (Graph.mk [Node.mk "a" [], Node.mk "b" [], Node.mk "c" []]
      [Edge.mk "b" "c" none none]) < 3 :=
  (C5_stops_at_first_threshold gPath 3).1
    (Graph.mk [Node.mk "a" [], Node.mk "b" [], Node.mk "c" []]
      [Edge.mk "b" "c" none none]) (by decide)

/-- Counterexample to C5 as stated: on the triangle with target one the
stopping condition holds before the loop starts, yet an edge is still
removed afterwards. -/
theorem C5_removal_after_threshold_counterexample :
    1 ≤ numComponents gTri ∧
    partitionLoop gTri 1 =
      some (Graph.mk gTri.nodes [Edge.mk "b" "c" none none, Edge.mk "c" "a" none none]) :=
  ⟨by decide, by decide⟩

theorem componentCounts_chain (t : Nat) : ∀ (fuel : Nat) (g : Graph),
    List.Chain' (· ≤ ·) ((g :: partitionStatesGo t fuel g).map numComponents) := by
  intro fuel
  induction fuel with
  | zero => intro g; exact List.chain'_singleton (numComponents g)
  | succ fuel ih =>
    intro g
    cases ha : argmaxEdge g with
    | none =>
      rw [partitionStatesGo_succ_none t fuel g ha]
      exact List.chain'_singleton (numComponents g)
    | some e =>
      rw [partitionStatesGo_succ_some t fuel g e ha]
      by_cases hc : t ≤ numComponents (removeEdge g e)
      · rw [if_pos hc]
        simp only [List.map_cons, List.map_nil]
        exact List.chain'_pair.mpr (numComponents_mono g e)
      · rw [if_neg hc]
        have h2 := ih (removeEdge g e)
        simp only [List.map_cons] at h2 ⊢
        exact List.chain'_cons.mpr ⟨numComponents_mono g e, h2⟩

/-- C6 amended: across the iterations of the partition loop the component
count is non-decreasing; when the initial count is below the target and the
loop succeeds, the final count strictly exceeds the initial one, so at least
one strict increase occurs.  When the initial graph already meets the
target, however, the single pass the loop still performs need not increase
the count at all. -/
theorem C6_monotonic_counts (g : Graph) (t : Nat) :
    List.Chain' (· ≤ ·) (componentCounts g t) ∧
    (∀ g2, numComponents g < t → partitionLoop g t = some g2 →
      numComponents g < numComponents g2) :=
  ⟨componentCounts_chain t (g.edges.length + 1) g,
   fun g2 hlt h =>
     lt_of_lt_of_le hlt (partitionGo_last t (g.edges.length + 1) g g2 h).2⟩

/-- Witness for C6 amended on the two-node graph split in two. -/
theorem C6_monotonic_counts_witness :
    List.Chain' (· ≤ ·) (componentCounts gAB 2) ∧
    numComponents gAB < numComponents (Graph.mk [Node.mk "a" [], Node.mk "b" []] []) :=
  ⟨(C6_monotonic_counts gAB 2).1,
   (C6_monotonic_counts gAB 2).2 (Graph.mk [Node.mk "a" [], Node.mk "b" []] [])
     (by decide) (by decide)⟩

/-- Counterexample to C6 as stated: on the triangle with target one the loop
terminates after one removal with the component count sequence one, one:
never a strict increase. -/
theorem C6_no_strict_increase_counterexample :
    componentCounts gTri 1 = [1, 1] ∧ (partitionLoop gTri 1).isSome = true :=
  ⟨by decide, by decide⟩

end GraphAnalysis
